import Mathlib

/-!
Verification of the CLAASP trail-search model-construction and solution-decoding
engine (CP cipher model, CP impossible-XOR-differential model, SMT deterministic
truncated model, XOR component) against its natural-language specification.

Strings are modelled as `List Char` (`Str`).  Python's `s.index(sub, start)` /
`sub in s` substring operations are embedded as executable functions below, and
the identifier-rewriting loops of the source are embedded as fuel-based scans
(the fuel used at every call site provably dominates the number of loop
iterations the Python loops can perform, because each iteration moves the scan
start past the inserted tag).
-/

set_option maxRecDepth 100000

namespace Claasp

/-- Strings are lists of characters. -/
abbrev Str := List Char

/-- Convert a Lean string literal to our string representation. -/
def str (s : String) : Str := s.toList

/-- Decimal representation of a natural number, as used by Python f-strings. -/
def natStr (n : Nat) : Str := (Nat.repr n).toList

/-- Predicate form of occurrence: `OccAt needle hay i` holds when `needle` occurs in `hay` starting at index `i`. -/
def OccAt (needle hay : Str) (i : Nat) : Prop :=
  (hay.drop i).take needle.length = needle

instance (needle hay : Str) (i : Nat) : Decidable (OccAt needle hay i) := by
  unfold OccAt; infer_instance

/-- Auxiliary linear scan: search for `needle` in `hay` at indices
`i, i+1, ...`, trying at most `r` positions. -/
def findFromAux (needle hay : Str) : Nat → Nat → Option Nat
  | 0, _ => none
  | r + 1, i => if OccAt needle hay i then some i else findFromAux needle hay r (i + 1)

/-- Python's `hay.index(needle, start)` (as an `Option`): index of the first
occurrence of `needle` in `hay` at a position `≥ start`; `none` when
`needle not in hay[start:]`. -/
def findFrom (needle hay : Str) (start : Nat) : Option Nat :=
  findFromAux needle hay (hay.length + 1 - start) start

/-- Python's `needle in hay` substring test. -/
def pyIn (needle hay : Str) : Bool := (findFrom needle hay 0).isSome

/-- Relation stating that `needle` occurs somewhere inside `hay` (decomposition form). -/
def Substr (needle hay : Str) : Prop := ∃ u v, hay = u ++ needle ++ v

/-!
### Identifier-rewriting scans

`build_second_cipher_model` (cp_cipher_model.py, lines 141-168) and
`clean_inverse_impossible_variables_constraints`
(cp_impossible_xor_differential_model.py, lines 227-258) rewrite identifiers by
repeatedly searching a string for an identifier from a moving start position,
inserting a tag (`'second_'` resp. `'inverse_'`) in front of the occurrence
found, and resuming the search at `new_start + 8` (resp. `new_start + 9`),
one past the end of the inserted tag.  The start position therefore advances by
at least `tag.length + 1` per iteration while the string grows by only
`tag.length`, so the Python loops perform at most `s.length` iterations and the
fuel `s.length + 1` used below dominates them.
-/

/-- Insert `tag` into `s` at position `i` (Python `s[:i] + tag + s[i:]`). -/
def insertAt (s : Str) (i : Nat) (tag : Str) : Str := s.take i ++ tag ++ s.drop i

/-- One identifier-prefixing loop of the source
(`while needle in s[start:]: ... start = new_start + skip`), with explicit
fuel.  `skip` is the literal restart offset of the source: `8` for tag
`'second_'`, `9` for tag `'inverse_'`. -/
def tagScanF (tag needle : Str) (skip : Nat) : Nat → Str → Nat → Str
  | 0, s, _ => s
  | fuel + 1, s, start =>
    match findFrom needle s start with
    | none => s
    | some i => tagScanF tag needle skip fuel (insertAt s i tag) (i + skip)

/-- The full Python prefixing loop on one string. -/
def pyTagScan (tag needle : Str) (skip : Nat) (s : Str) : Str :=
  tagScanF tag needle skip (s.length + 1) s 0

/-- The double-prefix string `'inverse_inverse_'`. -/
def dblInv : Str := str "inverse_inverse_"

/-- The tag `'inverse_'`. -/
def invTagS : Str := str "inverse_"

/-- One `'inverse_inverse_'`-removal loop of the source
(cp_impossible_xor_differential_model.py, lines 247-257):
`s = s[:new_start] + s[new_start + 8:]; start = new_start`, with fuel.
Each iteration removes 8 characters, so fuel `s.length` dominates the loop. -/
def removeScanF : Nat → Str → Nat → Str
  | 0, s, _ => s
  | fuel + 1, s, start =>
    match findFrom dblInv s start with
    | none => s
    | some i => removeScanF fuel (s.take i ++ s.drop (i + 8)) i

/-- The full Python `'inverse_inverse_'`-removal loop on one string. -/
def pyRemoveDbl (s : Str) : Str := removeScanF s.length s 0

/-!
### The keep-list selection loops of `clean_constraints`

`clean_constraints` (cp_impossible_xor_differential_model.py, lines 220-223)
runs, for each identifier of the keep list, over the whole input constraint
list and appends every not-yet-kept constraint containing that identifier.
`selOne p cs acc` is the inner loop for one identifier (`p` is the substring
test against that identifier), `runSel ps cs acc` the outer loop.
-/

/-- Inner loop: `for constraint in set_of_constraints: if id_link in constraint
and constraint not in model_constraints: model_constraints.append(constraint)`. -/
def selOne {α : Type} [DecidableEq α] (p : α → Bool) : List α → List α → List α
  | [], acc => acc
  | c :: cs, acc => selOne p cs (if p c ∧ c ∉ acc then acc ++ [c] else acc)

/-- Outer loop: `for id_link in components_to_keep: ...`. -/
def runSel {α : Type} [DecidableEq α] : List (α → Bool) → List α → List α → List α
  | [], _, acc => acc
  | p :: ps, cs, acc => runSel ps cs (selOne p cs acc)

/-!
### Data model

Components and ciphers, as consumed (read-only) by the model builders: each
component has a unique identifier, a type from the fixed taxonomy, an operation
tag (`description[0]`), the number of addends (`description[1]`, meaningful for
word operations), input identifier links with bit-position lists, and an
output bit width.  A cipher is its ordered rounds of components plus its input
names and bit sizes.
-/

structure Component where
  id : Str
  type : Str
  op : Str
  descNum : Nat
  inputIdLinks : List Str
  inputBitPositions : List (List Nat)
  outputBitSize : Nat
deriving DecidableEq

structure Cipher where
  inputs : List Str
  inputsBitSize : List Nat
  rounds : List (List Component)
deriving DecidableEq

def Cipher.getAllComponents (C : Cipher) : List Component := C.rounds.flatten

def Cipher.numberOfRounds (C : Cipher) : Nat := C.rounds.length

def Cipher.getComponentsInRound (C : Cipher) (r : Nat) : List Component :=
  C.rounds.getD r []

def Cipher.getAllComponentsIds (C : Cipher) : List Str :=
  C.getAllComponents.map (·.id)

/-- The CP impossible-differential model holds the cipher together with its
inverse (`cipher.cipher_inverse()`, an external collaborator producing a
structurally identical graph). -/
structure ImpModel where
  cipher : Cipher
  inverseCipher : Cipher

/-- Python `range(a, b)`. -/
def pyRange (a b : Nat) : List Nat := (List.range (b - a)).map (a + ·)

/-!
### XOR component (components/xor_component.py)
-/

/-- Python slice `l[i::step]` (for `step ≥ 1`): the elements at indices
`i, i + step, i + 2*step, ...`. -/
def pySlice {α : Type} (l : List α) (i step : Nat) : List α :=
  (l.enum.filter (fun p => decide (i ≤ p.1 ∧ (p.1 - i) % step = 0))).map Prod.snd

/-- The concatenation `all_inputs` of `XOR.cp_constraints` (lines 254-256):
`'{id_link}[{position}]'` for every input link and every bit position. -/
def xorAllInputs (c : Component) : List Str :=
  (c.inputIdLinks.zip c.inputBitPositions).flatMap
    (fun pr => pr.2.map (fun position => pr.1 ++ str "[" ++ natStr position ++ str "]"))

/-- Source `XOR.cp_constraints` (lines 230-263): no declarations; one constraint per
output bit `i`, summing (mod 2) the input bits `all_inputs[i::output_size]`. -/
def xorCpConstraints (c : Component) : List Str × List Str :=
  let all_inputs := xorAllInputs c
  let cp_constraints := (List.range c.outputBitSize).map (fun i =>
    str "constraint " ++ c.id ++ str "[" ++ natStr i ++ str "] = ("
      ++ List.intercalate (str " + ") (pySlice all_inputs i c.outputBitSize)
      ++ str ") mod 2;")
  ([], cp_constraints)

/-- Source `XOR.__init__` (lines 132-139): identifier `xor_<round>_<index>`, type
`word_operation`, description `['XOR', int(input_len / output_bit_size)]`
where `input_len = sum(map(len, input_bit_positions))`. -/
def xorInit (roundNum idx : Nat) (links : List Str) (positions : List (List Nat))
    (outSize : Nat) : Component :=
  { id := str "xor_" ++ natStr roundNum ++ str "_" ++ natStr idx
    type := str "word_operation"
    op := str "XOR"
    descNum := (positions.map List.length).sum / outSize
    inputIdLinks := links
    inputBitPositions := positions
    outputBitSize := outSize }

/-!
### CP cipher model (cp_models/cp_cipher_model.py)

The taxonomy constants come from `name_mappings` (outside the excerpt); their
string values are fixed by the declaration/constraint strings the excerpt
itself emits and matches (`'constant'`, `'cipher_output'`, ...).
-/

def cpComponentTypes : List Str :=
  [str "cipher_output", str "constant", str "intermediate_output",
   str "linear_layer", str "mix_column", str "sbox", str "word_operation"]

def cpOperationTypes : List Str :=
  [str "AND", str "MODADD", str "MODSUB", str "NOT", str "OR", str "ROTATE",
   str "SHIFT", str "SHIFT_BY_VARIABLE_AMOUNT", str "XOR"]

/-- Source `CpCipherModel.input_constraints` (lines 256-284): one binary array
declaration per cipher input and one per non-constant component. -/
def inputConstraints (C : Cipher) : List Str :=
  ((C.inputs.zip C.inputsBitSize).map (fun pr =>
      str "array[0.." ++ natStr (pr.2 - 1) ++ str "] of var 0..1: " ++ pr.1 ++ str ";"))
  ++ ((C.getAllComponents.filter (fun c => !(pyIn (str "constant") c.type))).map
      (fun c => str "array[0.." ++ natStr (c.outputBitSize - 1)
        ++ str "] of var 0..1: " ++ c.id ++ str ";"))

/-- Value of `cp_model.solve_satisfy` (outside the excerpt; its value
`'solve satisfy;'` is documented by the `final_constraints` doctest). -/
def solveSatisfyStr : Str := str "solve satisfy;"

/-- The output-directive chunk appended for each cipher input
(`final_constraints`, line 203). -/
def inputShowChunk (e : Str) : Str :=
  str "\"" ++ e ++ str " = \"++ show(" ++ e ++ str ") ++ \"\\n\" ++"

/-- The output-directive chunk appended for each component identifier
(`final_constraints`, lines 205-206), including the `"0"` sentinel. -/
def compShowChunk (cid : Str) : Str :=
  str "\"" ++ cid ++ str " = \"++ show(" ++ cid
    ++ str ")++ \"\\n\" ++ \"0\" ++ \"\\n\" ++"

/-- Source `CpCipherModel.final_constraints` (lines 182-210): the solve directive
followed by the single output directive (built input chunks first, then
component chunks, with the last two characters `'++'` trimmed). -/
def finalConstraints (C : Cipher) : List Str :=
  let afterInputs := C.inputs.foldl (fun nc e => nc ++ inputShowChunk e) (str "output[")
  let full := C.getAllComponentsIds.foldl (fun nc cid => nc ++ compShowChunk cid) afterInputs
  [solveSatisfyStr, full.take (full.length - 2) ++ str "];"]

/-- Loop state of the model builders: the loop-carried `variables` /
`constraints` pair (which the source fails to reset for unsupported
components) and the two accumulated buffers. -/
structure BuildSt where
  vars : List Str
  cons : List Str
  variablesList : List Str
  modelConstraints : List Str
deriving DecidableEq

/-- Source `CpCipherModel.build_cipher_model` (lines 30-89), for `second=False`.
The per-component emitters and `fix_variables_value_constraints` are external
collaborators (outside the excerpt): they enter as `emit` and the precomputed
`fixedConstraints`.  `initialise_model`'s standard header (outside the excerpt)
is omitted, so `_model_prefix` is `input_constraints()` alone; the S-box
emitter variant threading `sbox_mant` is subsumed by `emit` (none of the
analysed ciphers contain S-boxes).  Note the `extend` calls sit OUTSIDE the
`if/else`, exactly as in the source (lines 83-84). -/
def buildCipherModel (emit : Component → List Str × List Str) (C : Cipher)
    (fixedConstraints : List Str) : List Str :=
  let st0 : BuildSt := ⟨[], fixedConstraints, [], fixedConstraints⟩
  let st := C.getAllComponents.foldl (fun st comp =>
    let vc := if comp.type ∈ cpComponentTypes ∧
        ¬(comp.type = str "word_operation" ∧ comp.op ∉ cpOperationTypes)
      then emit comp else (st.vars, st.cons)
    { vars := vc.1, cons := vc.2,
      variablesList := st.variablesList ++ vc.1,
      modelConstraints := st.modelConstraints ++ vc.2 }) st0
  inputConstraints C ++ st.variablesList ++ st.modelConstraints ++ finalConstraints C

/-- The identifier rewriting of `build_second_cipher_model`
(cp_cipher_model.py, lines 141-168) applied to a fragment of strings: the
per-component scan with tag `'second_'` (restart offset 8), then the per-input
scan. -/
def rewriteSecond (comps : List Component) (inputs : List Str)
    (strs : List Str) : List Str :=
  let s1 := comps.foldl (fun acc comp => acc.map (pyTagScan (str "second_") comp.id 8)) strs
  inputs.foldl (fun acc inp => acc.map (pyTagScan (str "second_") inp 8)) s1

/-!
### SMT deterministic truncated model
(smt_models/smt_deterministic_truncated_xor_differential_model.py)
-/

def smtComponentTypes : List Str :=
  [str "constant", str "intermediate_output", str "cipher_output",
   str "word_operation"]

def smtOperationTypes : List Str := [str "ROTATE", str "SHIFT"]

/-- Source `SmtXorDifferentialModel.build_deterministic_truncated_xor_differential_trail_model`
(lines 28-65).  Again `emit` and `fixedConstraints` stand for the external
emitters and `fix_variables_value_constraints`; the `extend` calls sit outside
the `if/else` exactly as in the source (lines 64-65).  Returns
`(_variables_list, _model_constraints)`. -/
def buildSmtDeterministicTruncated (emit : Component → List Str × List Str)
    (C : Cipher) (fixedConstraints : List Str) : List Str × List Str :=
  let st0 : BuildSt := ⟨[], fixedConstraints, [], fixedConstraints⟩
  let st := C.getAllComponents.foldl (fun st comp =>
    let vc := if comp.type ∈ smtComponentTypes ∧
        (comp.type ≠ str "word_operation" ∨ comp.op ∈ smtOperationTypes)
      then emit comp else (st.vars, st.cons)
    { vars := vc.1, cons := vc.2,
      variablesList := st.variablesList ++ vc.1,
      modelConstraints := st.modelConstraints ++ vc.2 }) st0
  (st.variablesList, st.modelConstraints)

/-!
### CP impossible-XOR-differential model
(cp_models/cp_impossible_xor_differential_model.py)
-/

/-- One step of `extract_key_schedule` (lines 319-327): append the component
when every one of its input links contains `'constant'` as a substring or is
already in the identifier list. -/
def ksStep (st : List Component × List Str) (comp : Component) :
    List Component × List Str :=
  if comp.inputIdLinks.all (fun inp => pyIn (str "constant") inp || decide (inp ∈ st.2))
  then (st.1 ++ [comp], st.2 ++ [comp.id]) else st

/-- Source `extract_key_schedule` (lines 315-329): a single ordered pass over all
components, identifier list seeded with `'key'`. -/
def extractKeySchedule (C : Cipher) : List Component × List Str :=
  C.getAllComponents.foldl ksStep ([], [str "key"])

/-- Modelled from the spec: the spec defines a key-schedule component as
"a component reachable from the `key` input through only constants and other
key-schedule components, i.e., independent of the plaintext/ciphertext data
path" (§3, §4.3), computed as a fixed point from the `key` input.  One
reachability step: a component joins the set when all of its inputs are
constants or already-reached components AND at least one input is an
already-reached component (so that it is actually reachable from `key`). -/
def keyReachStep (C : Cipher) (R : List Str) : List Str :=
  C.getAllComponents.foldl (fun R comp =>
    if comp.inputIdLinks.all (fun inp => pyIn (str "constant") inp || decide (inp ∈ R))
        ∧ comp.inputIdLinks.any (fun inp => decide (inp ∈ R))
        ∧ comp.id ∉ R
    then R ++ [comp.id] else R) R

/-- Modelled from the spec (see `keyReachStep`): the fixed point of the
reachability step, reached after at most one step per component. -/
def keyReachableSpec (C : Cipher) : List Str :=
  Nat.iterate (keyReachStep C) (C.getAllComponents.length + 1) [str "key"]

/-- The per-component `'inverse_'` rewrite of
`clean_inverse_impossible_variables_constraints` (lines 228-240) alone,
without the cleanup. -/
def rewriteInverse (comps : List Component) (strs : List Str) : List Str :=
  comps.foldl (fun acc comp => acc.map (pyTagScan invTagS comp.id 9)) strs

/-- Source `clean_inverse_impossible_variables_constraints` (lines 227-258): prefix
every occurrence of each backward component's identifier with `'inverse_'`
(restart offset 9) in all variable and constraint strings; then, in each
constraint string, prefix every `'cipher_output'` occurrence and collapse every
`'inverse_inverse_'`; finally collapse every `'inverse_inverse_'` in each
variable string.  (The source interleaves the variable and constraint scans
inside one loop over the components; the two buffers evolve independently, so
they are separated here.) -/
def cleanInverseImpossible (backwardComponents : List Component)
    (inverseVariables inverseConstraints : List Str) : List Str × List Str :=
  ((rewriteInverse backwardComponents inverseVariables).map pyRemoveDbl,
   (rewriteInverse backwardComponents inverseConstraints).map
     (fun s => pyRemoveDbl (pyTagScan invTagS (str "cipher_output") 9 s)))

/-- The keep list `components_to_keep` of `clean_constraints` (lines 202-219):
forward component ids of rounds `initial_round-1 .. middle_round-1`,
`'inverse_'`-prefixed backward ids of the mirrored rounds, key-schedule ids
(plain and prefixed), the literal `'array['`, and the conditional extensions.
Round indices are 1-based and within `[1, number_of_rounds]`, as in the
source's usage. -/
def keepList (M : ImpModel) (initialRound middleRound finalRound : Nat) : List Str :=
  let nr := M.cipher.numberOfRounds
  let forward := (pyRange (initialRound - 1) middleRound).flatMap
    (fun r => (M.cipher.getComponentsInRound r).map (·.id))
  let backward := (pyRange (nr - finalRound) (nr - middleRound + 1)).flatMap
    (fun r => (M.inverseCipher.getComponentsInRound r).map (fun c => invTagS ++ c.id))
  let keyIds := (extractKeySchedule M.cipher).2
  forward ++ backward ++ keyIds ++ keyIds.map (fun idl => invTagS ++ idl)
    ++ [str "array["]
    ++ (if initialRound = 1 then M.cipher.inputs else [])
    ++ (if finalRound = nr then M.inverseCipher.inputs.map (fun idl => invTagS ++ idl) else [])
    ++ (if 1 < initialRound then
          ((M.cipher.getComponentsInRound (initialRound - 2)).filter
            (fun c => pyIn (str "output") c.id)).map (·.id)
        else [])

/-- Source `clean_constraints` (lines 199-225): the input unchanged for the full-span
window, otherwise the double selection loop over the keep list. -/
def cleanConstraints (M : ImpModel) (setOfConstraints : List Str)
    (initialRound middleRound finalRound : Nat) : List Str :=
  if initialRound = 1 ∧ finalRound = M.cipher.numberOfRounds then setOfConstraints
  else runSel ((keepList M initialRound middleRound finalRound).map
    (fun idl => fun c => pyIn idl c)) setOfConstraints []

/-- The pruning behaviour the spec claims for a non-full window: the
order-preserving filter of the input by the keep list (stated for comparison
with `cleanConstraints`). -/
def specOrderedKeep (M : ImpModel) (setOfConstraints : List Str)
    (initialRound middleRound finalRound : Nat) : List Str :=
  setOfConstraints.filter (fun c =>
    (keepList M initialRound middleRound finalRound).any (fun idl => pyIn idl c))

/-- Source `add_solution_to_components_values` (lines 34-48), modelled as the key the
parsed value is stored under in the current solution bucket (`none` when no
branch matches and nothing is stored). -/
def addSolutionKey (cipherInputs inverseCipherInputs : List Str)
    (componentId string : Str) : Option Str :=
  if componentId ∈ cipherInputs then some componentId
  else if componentId ∈ inverseCipherInputs then some (invTagS ++ componentId)
  else if pyIn (componentId ++ str "_i") string then some (componentId ++ str "_i")
  else if pyIn (componentId ++ str "_o") string then some (componentId ++ str "_o")
  else if pyIn (invTagS ++ componentId ++ str " ") string then some (invTagS ++ componentId)
  else if pyIn (componentId ++ str " ") string then some componentId
  else none

/-- The storage rule as the spec claims it: the identifier's own key, unless
the identifier is an inverse-cipher input (then `'inverse_' + id`) or the
matched pattern carries an `_i`/`_o` suffix (then the suffix is retained).
Stated for comparison with `addSolutionKey`. -/
def claimBucketKey (inverseCipherInputs : List Str)
    (componentId string : Str) : Option Str :=
  if componentId ∈ inverseCipherInputs then some (invTagS ++ componentId)
  else if pyIn (componentId ++ str "_i") string then some (componentId ++ str "_i")
  else if pyIn (componentId ++ str "_o") string then some (componentId ++ str "_o")
  else some componentId

/-!
### Whole-token occurrence counting (for the mirroring-injectivity claims)
-/

def isIdentChar (c : Char) : Bool := c.isAlphanum || c = '_'

/-- Test that `tok` occurs at `i` in `s` as a whole token: as a substring, with no
identifier character immediately before or after. -/
def wholeTokenAt (tok s : Str) (i : Nat) : Bool :=
  decide (OccAt tok s i)
    && (decide (i = 0) || !(isIdentChar (s.getD (i - 1) ' ')))
    && (decide (s.length ≤ i + tok.length) || !(isIdentChar (s.getD (i + tok.length) ' ')))

def countWholeTokens (tok s : Str) : Nat :=
  ((List.range s.length).filter (fun i => wholeTokenAt tok s i)).length

/-!
### Toy instances

Concrete ciphers and fragments used to instantiate the claims (the section-8
toy cipher of the spec, plus small ciphers exercising the keep-list scan, the
key-schedule pass and the unsupported-component path).
-/

/-- The section-8 toy XOR component: `xor_0_0` consuming bits 0-3 of
`plaintext` and bits 0-3 of `key`, 4 output bits. -/
def xorToy : Component := xorInit 0 0 [str "plaintext", str "key"] [[0, 1, 2, 3], [0, 1, 2, 3]] 4

/-- Helper for toy components whose bit positions are irrelevant. -/
def mkComp (idStr typeStr opStr : String) (links : List String) : Component :=
  { id := str idStr, type := str typeStr, op := str opStr, descNum := 0,
    inputIdLinks := links.map str, inputBitPositions := [], outputBitSize := 4 }

/-- The section-8 toy fragment: declarations for `plaintext`, `key`, `xor_0_0`
and the four XOR constraints. -/
def fragToy : List Str :=
  [str "array[0..3] of var 0..1: plaintext;",
   str "array[0..3] of var 0..1: key;",
   str "array[0..3] of var 0..1: xor_0_0;",
   str "constraint xor_0_0[0] = (plaintext[0] + key[0]) mod 2;",
   str "constraint xor_0_0[1] = (plaintext[1] + key[1]) mod 2;",
   str "constraint xor_0_0[2] = (plaintext[2] + key[2]) mod 2;",
   str "constraint xor_0_0[3] = (plaintext[3] + key[3]) mod 2;"]

/-- The section-8 toy 2-round cipher: `xor_0_0` in round 0, the cipher-output
component in round 1. -/
def outToy : Component := mkComp "cipher_output_1_0" "cipher_output" "cipher_output" ["xor_0_0"]

def cipherToy : Cipher :=
  { inputs := [str "plaintext", str "key"], inputsBitSize := [4, 4],
    rounds := [[xorToy], [outToy]] }

/-- A toy inverse cipher for `cipherToy` (as `cipher_inverse()` would return:
same round count, mirrored data flow). -/
def invToy : Cipher :=
  { inputs := [str "cipher_output_1_0"], inputsBitSize := [4],
    rounds := [[mkComp "xor_0_0" "word_operation" "XOR" ["cipher_output_1_0"]],
               [mkComp "plaintext_output_1_0" "cipher_output" "cipher_output" ["xor_0_0"]]] }

def impToy : ImpModel := { cipher := cipherToy, inverseCipher := invToy }

/-- Two constraint strings whose keep-list matches invert the input order. -/
def csToy : List Str := [str "plaintext rocks", str "xor_0_0 rocks"]

/-- Two backward components with overlapping identifiers (`rot_0_1` is a
prefix of `rot_0_12`), triggering a double prefix in the `'inverse_'` rewrite. -/
def rotComps : List Component :=
  [mkComp "rot_0_1" "word_operation" "ROTATE" ["plaintext"],
   mkComp "rot_0_12" "word_operation" "ROTATE" ["rot_0_1"]]

/-- A cipher whose second component is an unsupported word operation. -/
def fooComp : Component := mkComp "foo_1_0" "word_operation" "FOO" ["xor_0_0"]

def cipherFoo : Cipher :=
  { inputs := [str "plaintext", str "key"], inputsBitSize := [4, 4],
    rounds := [[xorToy], [fooComp]] }

/-- Emitter for `cipherFoo`: the CP XOR emitter for the XOR component, a
marker for anything else (the marker must never appear in a build, since
unsupported components are never dispatched). -/
def emitFoo : Component → List Str × List Str :=
  fun c => if c.op = str "XOR" then xorCpConstraints c
           else ([], [str "UNSUPPORTED_EMITTER_CALLED"])

/-- A one-round cipher whose only component (XOR) is unsupported in the SMT
deterministic-truncated mode. -/
def smtToy : Cipher :=
  { inputs := [str "plaintext"], inputsBitSize := [4], rounds := [[xorToy]] }

/-- A one-input one-component cipher for the output-directive claims. -/
def cipherOneComp : Cipher :=
  { inputs := [str "plaintext"], inputsBitSize := [4], rounds := [[xorToy]] }

/-- A cipher with a component fed only by a constant: classified as
key-schedule by the source, yet not reachable from the `key` input. -/
def constComp : Component := mkComp "constant_0_0" "constant" "constant" [""]

def andComp : Component := mkComp "and_0_1" "word_operation" "AND" ["constant_0_0"]

def cipherConstFed : Cipher :=
  { inputs := [str "plaintext", str "key"], inputsBitSize := [4, 4],
    rounds := [[constComp, andComp]] }

/-- The toy fragment for the `'inverse_'` rewrite (declaration and constraints
of `xor_0_0` only, as produced for a backward component). -/
def fragInv : List Str :=
  [str "array[0..3] of var 0..1: xor_0_0;",
   str "constraint xor_0_0[0] = (plaintext[0] + key[0]) mod 2;",
   str "constraint xor_0_0[1] = (plaintext[1] + key[1]) mod 2;",
   str "constraint xor_0_0[2] = (plaintext[2] + key[2]) mod 2;",
   str "constraint xor_0_0[3] = (plaintext[3] + key[3]) mod 2;"]

/-!
### Claim theorems
-/

theorem occAt_add_length_le (needle hay : Str) (i : Nat) (hne : needle ≠ [])
    (h : OccAt needle hay i) : i + needle.length ≤ hay.length := by
  unfold OccAt at h
  have hlen := congrArg List.length h
  rw [List.length_take, List.length_drop] at hlen
  have hpos : 0 < needle.length := List.length_pos.mpr hne
  omega

theorem findFromAux_some (needle hay : Str) :
    ∀ r i j, findFromAux needle hay r i = some j →
      OccAt needle hay j ∧ i ≤ j ∧ ∀ k, i ≤ k → k < j → ¬ OccAt needle hay k := by
  intro r
  induction r with
  | zero => intro i j h; simp [findFromAux] at h
  | succ r ih =>
    intro i j h
    rw [findFromAux] at h
    split at h
    · rename_i hocc
      cases h
      exact ⟨hocc, le_refl _, fun k hk1 hk2 => absurd hk1 (by omega)⟩
    · rename_i hnocc
      obtain ⟨h1, h2, h3⟩ := ih (i + 1) j h
      refine ⟨h1, by omega, fun k hk1 hk2 => ?_⟩
      by_cases hk : k = i
      · subst hk; exact hnocc
      · exact h3 k (by omega) hk2

theorem findFromAux_none (needle hay : Str) :
    ∀ r i, findFromAux needle hay r i = none →
      ∀ k, i ≤ k → k < i + r → ¬ OccAt needle hay k := by
  intro r
  induction r with
  | zero => intro i _ k hk1 hk2; omega
  | succ r ih =>
    intro i h k hk1 hk2
    rw [findFromAux] at h
    split at h
    · simp at h
    · rename_i hnocc
      by_cases hk : k = i
      · subst hk; exact hnocc
      · exact ih (i + 1) h k (by omega) (by omega)

theorem findFrom_some (needle hay : Str) (start j : Nat)
    (h : findFrom needle hay start = some j) :
    OccAt needle hay j ∧ start ≤ j ∧ ∀ k, start ≤ k → k < j → ¬ OccAt needle hay k :=
  findFromAux_some needle hay _ start j h

theorem findFrom_none (needle hay : Str) (start : Nat) (hne : needle ≠ [])
    (h : findFrom needle hay start = none) :
    ∀ k, start ≤ k → ¬ OccAt needle hay k := by
  intro k hk hocc
  have hb := occAt_add_length_le needle hay k hne hocc
  have hlen : 1 ≤ needle.length := by
    cases needle with
    | nil => exact absurd rfl hne
    | cons a l => simp
  exact findFromAux_none needle hay _ start h k hk (by omega) hocc

theorem occAt_iff_decomp (needle hay : Str) (i : Nat) :
    OccAt needle hay i → hay = hay.take i ++ needle ++ hay.drop (i + needle.length) := by
  intro h
  unfold OccAt at h
  have hstep : hay.drop i = needle ++ hay.drop (i + needle.length) := by
    conv_lhs => rw [← List.take_append_drop needle.length (hay.drop i)]
    rw [h, List.drop_drop]
  calc hay = hay.take i ++ hay.drop i := (List.take_append_drop i hay).symm
    _ = hay.take i ++ (needle ++ hay.drop (i + needle.length)) := by rw [hstep]
    _ = hay.take i ++ needle ++ hay.drop (i + needle.length) := by
          rw [List.append_assoc]

theorem substr_of_occAt {needle hay : Str} {i : Nat}
    (h : OccAt needle hay i) : Substr needle hay :=
  ⟨hay.take i, hay.drop (i + needle.length), occAt_iff_decomp needle hay i h⟩

theorem occAt_of_decomp (needle u v : Str) :
    OccAt needle (u ++ needle ++ v) u.length := by
  unfold OccAt
  rw [List.append_assoc, List.drop_append_eq_append_drop]
  simp

theorem pyIn_iff_substr (needle hay : Str) (hne : needle ≠ []) :
    pyIn needle hay = true ↔ Substr needle hay := by
  constructor
  · intro h
    unfold pyIn at h
    rw [Option.isSome_iff_exists] at h
    obtain ⟨j, hj⟩ := h
    exact substr_of_occAt (findFrom_some needle hay 0 j hj).1
  · rintro ⟨u, v, rfl⟩
    unfold pyIn
    rw [Option.isSome_iff_exists]
    by_cases h : ∃ j, findFrom needle (u ++ needle ++ v) 0 = some j
    · obtain ⟨j, hj⟩ := h; exact ⟨j, hj⟩
    · exfalso
      push_neg at h
      have hnone : findFrom needle (u ++ needle ++ v) 0 = none := by
        cases hf : findFrom needle (u ++ needle ++ v) 0 with
        | none => rfl
        | some j => exact absurd hf (h j)
      exact findFrom_none needle _ 0 hne hnone u.length (Nat.zero_le _)
        (occAt_of_decomp needle u v)

theorem dblInv_length : dblInv.length = 16 := rfl

/-- Removing the first half of a leftmost-up-to-`start` occurrence of
`'inverse_inverse_'` cannot create an occurrence strictly before the removal
point.  This is the combinatorial heart of the cleanup loop's correctness: the
loop restarts at the removal index, and this lemma shows it never leaves an
unremoved occurrence behind it. -/
theorem no_new_dbl_before (s : Str) (i j : Nat)
    (hocc : OccAt dblInv s i) (hmin : ∀ k, k < i → ¬ OccAt dblInv s k)
    (hj : j < i) : ¬ OccAt dblInv (s.take i ++ s.drop (i + 8)) j := by
  intro h
  have hbound : i + 16 ≤ s.length := by
    have := occAt_add_length_le dblInv s i (by decide) hocc
    rw [dblInv_length] at this; exact this
  have hAlen : (s.take i).length = i := by rw [List.length_take]; omega
  unfold OccAt at h
  rw [dblInv_length] at h
  have hdropA : ((s.take i) ++ (s.drop (i + 8))).drop j
      = (s.take i).drop j ++ s.drop (i + 8) := by
    rw [List.drop_append_eq_append_drop]
    have hz : j - (s.take i).length = 0 := by omega
    rw [hz, List.drop_zero]
  rw [hdropA, List.take_append_eq_append_take] at h
  have heA : ((s.take i).drop j).length = i - j := by
    rw [List.length_drop, hAlen]
  rw [heA] at h
  -- abbreviation for the overlap width
  have hAd : (s.take i).drop j = (s.drop j).take (i - j) := by
    rw [List.drop_take]
  -- the backward half of the occurrence at i
  have hB8 : (s.drop (i + 8)).take 8 = invTagS := by
    have hocc' : (s.drop i).take 16 = dblInv := by
      have := hocc; unfold OccAt at this; rw [dblInv_length] at this; exact this
    have h1 : ((s.drop i).take 16).drop 8 = dblInv.drop 8 := by rw [hocc']
    rw [List.drop_take] at h1
    rw [List.drop_drop] at h1
    exact h1
  by_cases hcase : 16 ≤ i - j
  · -- the supposed new occurrence lies entirely inside `s.take i`:
    -- it is an occurrence of `s` before `i`, contradicting minimality
    have hz : 16 - (i - j) = 0 := by omega
    rw [hz, List.take_zero, List.append_nil] at h
    apply hmin j hj
    unfold OccAt
    rw [dblInv_length]
    rw [hAd] at h
    rw [List.take_take] at h
    have : min 16 (i - j) = 16 := by omega
    rw [this] at h
    exact h
  · -- the supposed new occurrence overlaps the removal point
    have he1 : 1 ≤ i - j := by omega
    have hXfull : ((s.take i).drop j).take 16 = (s.take i).drop j := by
      apply List.take_of_length_le; omega
    rw [hXfull] at h
    have hsplit : dblInv = dblInv.take (i - j) ++ dblInv.drop (i - j) :=
      (List.take_append_drop (i - j) dblInv).symm
    rw [hsplit] at h
    have hlens : ((s.take i).drop j).length = (dblInv.take (i - j)).length := by
      rw [heA, List.length_take, dblInv_length]; omega
    obtain ⟨hA_eq, hB_eq⟩ := List.append_inj h hlens
    by_cases he8 : i - j = 8
    · -- the forward half also sits just before `i` in `s`:
      -- `s` has an occurrence at `j`, contradicting minimality
      apply hmin j hj
      unfold OccAt
      rw [dblInv_length]
      have h16 : (s.drop j).take 16 = (s.drop j).take 8 ++ ((s.drop j).drop 8).take 8 := by
        rw [← List.take_add]
      have hfst : (s.drop j).take 8 = invTagS := by
        have : (s.drop j).take (i - j) = dblInv.take (i - j) := by rw [← hAd]; exact hA_eq
        rw [he8] at this
        exact this
      have hsnd : ((s.drop j).drop 8).take 8 = invTagS := by
        rw [List.drop_drop]
        have hji : j + 8 = i := by omega
        rw [hji]
        have hocc' : (s.drop i).take 16 = dblInv := by
          have := hocc; unfold OccAt at this; rw [dblInv_length] at this; exact this
        have h1 : ((s.drop i).take 16).take 8 = dblInv.take 8 := by rw [hocc']
        rw [List.take_take] at h1
        exact h1
      rw [h16, hfst, hsnd]
      rfl
    · by_cases he8lt : i - j ≤ 8
      · -- 1 ≤ i - j ≤ 7: a nontrivial rotation of `'inverse_'` would be needed
        have h1 : ((s.drop (i + 8)).take (16 - (i - j))).take 8 = (s.drop (i + 8)).take 8 := by
          rw [List.take_take]
          have : min 8 (16 - (i - j)) = 8 := by omega
          rw [this]
        have h2 : (dblInv.drop (i - j)).take 8 = invTagS := by
          rw [← hB_eq, h1, hB8]
        have he7 : i - j ≤ 7 := by omega
        set e := i - j with hee
        interval_cases e <;> exact absurd h2 (by decide)
      · -- 9 ≤ i - j ≤ 15: a nontrivial period of `'inverse_'` would be needed
        have h1 : ((s.drop (i + 8)).take 8).take (16 - (i - j)) = (s.drop (i + 8)).take (16 - (i - j)) := by
          rw [List.take_take]
          have : min (16 - (i - j)) 8 = 16 - (i - j) := by omega
          rw [this]
        have h2 : invTagS.take (16 - (i - j)) = dblInv.drop (i - j) := by
          rw [← hB8, h1, hB_eq]
        have he9 : 9 ≤ i - j := by omega
        have he15 : i - j ≤ 15 := by omega
        set e := i - j with hee
        interval_cases e <;> exact absurd h2 (by decide)

/-- After the removal loop, no occurrence of `'inverse_inverse_'` remains,
provided none existed before the start position.  (The fuel bound
`s.length ≤ 8 * fuel + 15` is maintained because each removal shortens the
string by 8.) -/
theorem removeScanF_no_dbl :
    ∀ fuel s start, s.length ≤ 8 * fuel + 15 →
      (∀ k, k < start → ¬ OccAt dblInv s k) →
      ∀ j, ¬ OccAt dblInv (removeScanF fuel s start) j := by
  intro fuel
  induction fuel with
  | zero =>
    intro s start hlen _ j h
    have := occAt_add_length_le dblInv _ j (by decide) h
    rw [dblInv_length] at this
    simp only [removeScanF] at h
    have hb := occAt_add_length_le dblInv s j (by decide) h
    rw [dblInv_length] at hb
    omega
  | succ fuel ih =>
    intro s start hlen hpre j h
    rw [removeScanF] at h
    cases hf : findFrom dblInv s start with
    | none =>
      rw [hf] at h
      rcases Nat.lt_or_ge j start with hj | hj
      · exact hpre j hj h
      · exact findFrom_none dblInv s start (by decide) hf j hj h
    | some i =>
      rw [hf] at h
      obtain ⟨hocc, hge, hminmid⟩ := findFrom_some dblInv s start i hf
      have hmin : ∀ k, k < i → ¬ OccAt dblInv s k := by
        intro k hk
        rcases Nat.lt_or_ge k start with hk' | hk'
        · exact hpre k hk'
        · exact hminmid k hk' hk
      have hbound : i + 16 ≤ s.length := by
        have := occAt_add_length_le dblInv s i (by decide) hocc
        rw [dblInv_length] at this; exact this
      have hlen' : (s.take i ++ s.drop (i + 8)).length ≤ 8 * fuel + 15 := by
        rw [List.length_append, List.length_take, List.length_drop]
        omega
      exact ih (s.take i ++ s.drop (i + 8)) i hlen'
        (fun k hk => no_new_dbl_before s i k hocc hmin hk) j h

/-- The Python removal loop leaves no `'inverse_inverse_'` in any string. -/
theorem pyRemoveDbl_no_dbl (s : Str) : ¬ Substr dblInv (pyRemoveDbl s) := by
  rintro ⟨u, v, huv⟩
  have hocc : OccAt dblInv (removeScanF s.length s 0) u.length := by
    have : pyRemoveDbl s = u ++ dblInv ++ v := huv
    unfold pyRemoveDbl at this
    rw [this]
    exact occAt_of_decomp dblInv u v
  exact removeScanF_no_dbl s.length s 0 (by omega)
    (fun k hk => absurd hk (Nat.not_lt_zero k)) u.length hocc

theorem mem_selOne {α : Type} [DecidableEq α] (p : α → Bool) :
    ∀ (cs acc : List α) (a : α), a ∈ selOne p cs acc ↔ a ∈ acc ∨ (a ∈ cs ∧ p a) := by
  intro cs
  induction cs with
  | nil => intro acc a; simp [selOne]
  | cons c cs ih =>
    intro acc a
    rw [selOne, ih]
    by_cases hp : p c ∧ c ∉ acc
    · rw [if_pos hp]
      simp only [List.mem_append, List.mem_singleton, List.mem_cons,
        List.not_mem_nil, or_false]
      constructor
      · rintro ((h | rfl) | ⟨h1, h2⟩)
        · exact Or.inl h
        · exact Or.inr ⟨Or.inl rfl, hp.1⟩
        · exact Or.inr ⟨Or.inr h1, h2⟩
      · rintro (h | ⟨(rfl | h1), h2⟩)
        · exact Or.inl (Or.inl h)
        · exact Or.inl (Or.inr rfl)
        · exact Or.inr ⟨h1, h2⟩
    · rw [if_neg hp]
      simp only [List.mem_cons]
      constructor
      · rintro (h | ⟨h1, h2⟩)
        · exact Or.inl h
        · exact Or.inr ⟨Or.inr h1, h2⟩
      · rintro (h | ⟨(rfl | h1), h2⟩)
        · exact Or.inl h
        · push_neg at hp
          exact Or.inl (hp h2)
        · exact Or.inr ⟨h1, h2⟩

/-- The inner loop only appends: the result is the accumulator followed by new
elements, each matching, drawn from the scanned list, not previously present,
and mutually distinct. -/
theorem selOne_structure {α : Type} [DecidableEq α] (p : α → Bool) :
    ∀ (cs acc : List α), ∃ t, selOne p cs acc = acc ++ t ∧
      (∀ a ∈ t, p a ∧ a ∈ cs ∧ a ∉ acc) ∧ t.Nodup := by
  intro cs
  induction cs with
  | nil => intro acc; exact ⟨[], by simp [selOne]⟩
  | cons c cs ih =>
    intro acc
    rw [selOne]
    by_cases hp : p c ∧ c ∉ acc
    · rw [if_pos hp]
      obtain ⟨t, ht1, ht2, ht3⟩ := ih (acc ++ [c])
      refine ⟨c :: t, ?_, ?_, ?_⟩
      · rw [ht1, List.append_assoc]; rfl
      · intro a ha
        rcases List.mem_cons.mp ha with rfl | ha
        · exact ⟨hp.1, List.mem_cons_self _ _, hp.2⟩
        · obtain ⟨h1, h2, h3⟩ := ht2 a ha
          simp only [List.mem_append, List.mem_singleton] at h3
          push_neg at h3
          exact ⟨h1, List.mem_cons_of_mem _ h2, h3.1⟩
      · rw [List.nodup_cons]
        refine ⟨fun hc => ?_, ht3⟩
        have := (ht2 c hc).2.2
        simp at this
    · rw [if_neg hp]
      obtain ⟨t, ht1, ht2, ht3⟩ := ih acc
      exact ⟨t, ht1, fun a ha =>
        ⟨(ht2 a ha).1, List.mem_cons_of_mem _ (ht2 a ha).2.1, (ht2 a ha).2.2⟩, ht3⟩

theorem selOne_nodup {α : Type} [DecidableEq α] (p : α → Bool) (cs acc : List α) (h : acc.Nodup) :
    (selOne p cs acc).Nodup := by
  obtain ⟨t, ht1, ht2, ht3⟩ := selOne_structure p cs acc
  rw [ht1, List.nodup_append]
  exact ⟨h, ht3, fun a ha hb => (ht2 a hb).2.2 ha⟩

theorem selOne_complete {α : Type} [DecidableEq α] (p : α → Bool) (cs acc : List α) (a : α)
    (ha : a ∈ cs) (hp : p a) : a ∈ selOne p cs acc :=
  (mem_selOne p cs acc a).mpr (Or.inr ⟨ha, hp⟩)

theorem selOne_append_scan {α : Type} [DecidableEq α] (p : α → Bool) :
    ∀ (cs₁ cs₂ acc : List α),
      selOne p (cs₁ ++ cs₂) acc = selOne p cs₂ (selOne p cs₁ acc) := by
  intro cs₁
  induction cs₁ with
  | nil => intro cs₂ acc; simp [selOne]
  | cons c cs ih => intro cs₂ acc; rw [List.cons_append, selOne, selOne, ih]

theorem selOne_skip {α : Type} [DecidableEq α] (p : α → Bool) :
    ∀ (cs acc : List α), (∀ c ∈ cs, c ∈ acc ∨ ¬ p c) → selOne p cs acc = acc := by
  intro cs
  induction cs with
  | nil => intro acc _; rfl
  | cons c cs ih =>
    intro acc h
    rw [selOne]
    have hc := h c (List.mem_cons_self _ _)
    have : ¬ (p c ∧ c ∉ acc) := by
      rintro ⟨h1, h2⟩
      rcases hc with h3 | h3
      · exact h2 h3
      · exact h3 h1
    rw [if_neg this]
    exact ih acc (fun d hd => h d (List.mem_cons_of_mem _ hd))

theorem selOne_extend_all {α : Type} [DecidableEq α] (p : α → Bool) :
    ∀ (t acc : List α), (∀ a ∈ t, p a) → t.Nodup → (∀ a ∈ t, a ∉ acc) →
      selOne p t acc = acc ++ t := by
  intro t
  induction t with
  | nil => intro acc _ _ _; simp [selOne]
  | cons c cs ih =>
    intro acc hall hnd hdis
    rw [selOne]
    have hp : p c ∧ c ∉ acc :=
      ⟨hall c (List.mem_cons_self _ _), hdis c (List.mem_cons_self _ _)⟩
    rw [if_pos hp]
    rw [List.nodup_cons] at hnd
    rw [ih (acc ++ [c]) (fun a ha => hall a (List.mem_cons_of_mem _ ha)) hnd.2
      (fun a ha hmem => by
        rcases List.mem_append.mp hmem with hmem | hmem
        · exact hdis a (List.mem_cons_of_mem _ ha) hmem
        · rw [List.mem_singleton] at hmem
          subst hmem
          exact hnd.1 ha)]
    rw [List.append_assoc]
    rfl

/-- Re-scanning the output of one inner loop with the same predicate and the
same original accumulator reproduces it. -/
theorem selOne_stable {α : Type} [DecidableEq α] (p : α → Bool) (cs acc : List α) :
    selOne p (selOne p cs acc) acc = selOne p cs acc := by
  obtain ⟨t, ht1, ht2, ht3⟩ := selOne_structure p cs acc
  rw [ht1, selOne_append_scan, selOne_skip p acc acc (fun c hc => Or.inl hc),
    selOne_extend_all p t acc (fun a ha => (ht2 a ha).1) ht3
      (fun a ha => (ht2 a ha).2.2)]

theorem runSel_structure {α : Type} [DecidableEq α] (ps : List (α → Bool)) :
    ∀ (cs acc : List α), ∃ t, runSel ps cs acc = acc ++ t ∧
      ∀ a ∈ t, a ∈ cs ∧ a ∉ acc := by
  induction ps with
  | nil => intro cs acc; exact ⟨[], by simp [runSel]⟩
  | cons p ps ih =>
    intro cs acc
    rw [runSel]
    obtain ⟨t1, ht11, ht12, _⟩ := selOne_structure p cs acc
    obtain ⟨t2, ht21, ht22⟩ := ih cs (selOne p cs acc)
    refine ⟨t1 ++ t2, ?_, ?_⟩
    · rw [ht21, ht11, List.append_assoc]
    · intro a ha
      rcases List.mem_append.mp ha with ha | ha
      · exact ⟨(ht12 a ha).2.1, (ht12 a ha).2.2⟩
      · have h2 := ht22 a ha
        rw [ht11] at h2
        refine ⟨h2.1, fun hmem => h2.2 (List.mem_append.mpr (Or.inl hmem))⟩

theorem runSel_nodup {α : Type} [DecidableEq α] (ps : List (α → Bool)) :
    ∀ (cs acc : List α), acc.Nodup → (runSel ps cs acc).Nodup := by
  induction ps with
  | nil => intro cs acc h; exact h
  | cons p ps ih => intro cs acc h; exact ih cs _ (selOne_nodup p cs acc h)

theorem mem_runSel {α : Type} [DecidableEq α] (ps : List (α → Bool)) :
    ∀ (cs acc : List α) (a : α),
      a ∈ runSel ps cs acc ↔ a ∈ acc ∨ (a ∈ cs ∧ ∃ p ∈ ps, p a) := by
  induction ps with
  | nil => intro cs acc a; simp [runSel]
  | cons p ps ih =>
    intro cs acc a
    rw [runSel, ih, mem_selOne]
    constructor
    · rintro ((h | ⟨h1, h2⟩) | ⟨h1, q, hq1, hq2⟩)
      · exact Or.inl h
      · exact Or.inr ⟨h1, p, List.mem_cons_self _ _, h2⟩
      · exact Or.inr ⟨h1, q, List.mem_cons_of_mem _ hq1, hq2⟩
    · rintro (h | ⟨h1, q, hq1, hq2⟩)
      · exact Or.inl (Or.inl h)
      · rcases List.mem_cons.mp hq1 with rfl | hq1
        · exact Or.inl (Or.inr ⟨h1, hq2⟩)
        · exact Or.inr ⟨h1, q, hq1, hq2⟩

/-- Idempotence of the double loop of `clean_constraints`: re-running the
keep-list selection on its own output (with a fresh empty accumulator embedded
in `acc`) reproduces the output. -/
theorem runSel_idem {α : Type} [DecidableEq α] (ps : List (α → Bool)) :
    ∀ (cs acc : List α), acc.Nodup →
      runSel ps (runSel ps cs acc) acc = runSel ps cs acc := by
  induction ps with
  | nil => intro cs acc _; rfl
  | cons p ps ih =>
    intro cs acc hacc
    rw [runSel]
    conv_lhs => rw [runSel]
    have hkey : selOne p (runSel ps cs (selOne p cs acc)) acc = selOne p cs acc := by
      obtain ⟨rest, hrest1, hrest2⟩ := runSel_structure ps cs (selOne p cs acc)
      rw [hrest1, selOne_append_scan, selOne_stable]
      apply selOne_skip
      intro c hc
      obtain ⟨hc1, hc2⟩ := hrest2 c hc
      right
      intro hpc
      exact hc2 (selOne_complete p cs acc c hc1 hpc)
    rw [hkey]
    exact ih cs (selOne p cs acc) (selOne_nodup p cs acc hacc)

/-!
### Supporting lemmas
-/

theorem pyIn_iff_substr_all (needle hay : Str) :
    pyIn needle hay = true ↔ Substr needle hay := by
  by_cases hne : needle = []
  · subst hne
    constructor
    · intro _
      exact ⟨[], hay, rfl⟩
    · intro _
      unfold pyIn findFrom
      have h0 : hay.length + 1 - 0 = hay.length + 1 := by omega
      rw [h0]
      rw [findFromAux]
      rw [if_pos (by unfold OccAt; simp)]
      rfl
  · exact pyIn_iff_substr needle hay hne

theorem substr_append_left (needle g h : Str) (hs : Substr needle h) :
    Substr needle (g ++ h) := by
  obtain ⟨u, v, rfl⟩ := hs
  exact ⟨g ++ u, v, by simp [List.append_assoc]⟩

theorem substr_append_right (needle h g : Str) (hs : Substr needle h) :
    Substr needle (h ++ g) := by
  obtain ⟨u, v, rfl⟩ := hs
  exact ⟨u, v ++ g, by simp [List.append_assoc]⟩

theorem substr_self (needle : Str) : Substr needle needle := ⟨[], [], by simp⟩

theorem substr_take_self (needle : Str) (k : Nat) : Substr (needle.take k) needle :=
  ⟨[], needle.drop k, by simp⟩

theorem substr_trans {a b c : Str} (h1 : Substr a b) (h2 : Substr b c) :
    Substr a c := by
  obtain ⟨u, v, rfl⟩ := h1
  obtain ⟨u', v', rfl⟩ := h2
  exact ⟨u' ++ u, v ++ v', by simp [List.append_assoc]⟩

theorem foldl_append_map (f : Str → Str) :
    ∀ (l : List Str) (init : Str),
      l.foldl (fun nc x => nc ++ f x) init = init ++ (l.map f).flatten := by
  intro l
  induction l with
  | nil => intro init; simp
  | cons x l ih =>
    intro init
    rw [List.foldl_cons, ih]
    simp [List.append_assoc]

theorem substr_flatten_map (f : Str → Str) (l : List Str) (x : Str) (hx : x ∈ l) :
    Substr (f x) (l.map f).flatten := by
  obtain ⟨s, t, rfl⟩ := List.append_of_mem hx
  rw [List.map_append, List.flatten_append, List.map_cons, List.flatten_cons]
  exact substr_append_left _ _ _ (substr_append_right _ _ _ (substr_self _))

theorem compShowChunk_two_le (cid : Str) : 2 ≤ (compShowChunk cid).length :=
  calc 2 ≤ (str ")++ \"\\n\" ++ \"0\" ++ \"\\n\" ++").length := by decide
    _ ≤ (compShowChunk cid).length := by
        unfold compShowChunk
        rw [List.length_append]
        omega

theorem take_len_sub_two_append (X L : Str) (h2 : 2 ≤ L.length) :
    (X ++ L).take ((X ++ L).length - 2) = X ++ L.take (L.length - 2) := by
  rw [List.length_append, List.take_append_eq_append_take]
  have h1 : X.length + L.length - 2 - X.length = L.length - 2 := by omega
  rw [h1]
  congr 1
  apply List.take_of_length_le
  omega

theorem enumFrom_filter_map_snd {α : Type} (q : Nat → Bool) :
    ∀ (l : List α) (nS : Nat),
      ((l.enumFrom nS).filter (fun p => q p.1)).map Prod.snd
        = ((List.range' nS l.length).filter q).filterMap (fun j => l.get? (j - nS)) := by
  intro l
  induction l with
  | nil => intro nS; simp
  | cons a t ih =>
    intro nS
    rw [List.enumFrom_cons, List.length_cons, List.range'_succ]
    by_cases hq : q nS = true
    · rw [List.filter_cons_of_pos (by simpa using hq), List.filter_cons_of_pos hq,
        List.map_cons, ih (nS + 1)]
      simp only [List.filterMap_cons, Nat.sub_self, List.get?_cons_zero]
      congr 1
      apply List.filterMap_congr
      intro j hj
      rw [List.mem_filter] at hj
      have hj1 := List.mem_range'_1.mp hj.1
      have hsub : j - nS = (j - (nS + 1)) + 1 := by omega
      rw [hsub]
      rfl
    · rw [List.filter_cons_of_neg (by simpa using hq), List.filter_cons_of_neg hq,
        ih (nS + 1)]
      apply List.filterMap_congr
      intro j hj
      rw [List.mem_filter] at hj
      have hj1 := List.mem_range'_1.mp hj.1
      have hsub : j - nS = (j - (nS + 1)) + 1 := by omega
      rw [hsub]
      rfl

theorem pySlice_eq_filterMap {α : Type} (l : List α) (i k : Nat) :
    pySlice l i k = ((List.range l.length).filter
      (fun j => decide (i ≤ j ∧ (j - i) % k = 0))).filterMap (fun j => l.get? j) := by
  unfold pySlice
  rw [List.enum_eq_enumFrom, List.range_eq_range']
  have h1 := enumFrom_filter_map_snd (fun j => decide (i ≤ j ∧ (j - i) % k = 0)) l 0
  simp only [Nat.sub_zero] at h1
  exact h1

theorem slice_index_iff (k i j : Nat) (hik : i < k) :
    (i ≤ j ∧ (j - i) % k = 0) ↔ j % k = i := by
  constructor
  · rintro ⟨h1, h2⟩
    obtain ⟨t, ht⟩ := Nat.dvd_of_mod_eq_zero h2
    have hj : j = i + k * t := by omega
    rw [hj, Nat.add_mul_mod_self_left]
    exact Nat.mod_eq_of_lt hik
  · intro hmod
    have hdm := Nat.div_add_mod j k
    constructor
    · have := Nat.mod_le j k
      omega
    · have hrep : j - i = k * (j / k) := by omega
      rw [hrep, Nat.mul_mod_right]

theorem range_filter_eq_singleton (n m : Nat) (h : m < n) :
    (List.range n).filter (fun i => decide (i = m)) = [m] := by
  induction n with
  | zero => omega
  | succ n ih =>
    rw [List.range_succ, List.filter_append]
    by_cases hm : m < n
    · rw [ih hm]
      have hlast : (List.filter (fun i => decide (i = m)) [n]) = [] := by
        simp
        omega
      rw [hlast, List.append_nil]
    · have hmn : m = n := by omega
      subst hmn
      have h1 : (List.range m).filter (fun i => decide (i = m)) = [] := by
        rw [List.filter_eq_nil_iff]
        intro a ha
        rw [List.mem_range] at ha
        simp
        omega
      rw [h1]
      simp

theorem ksFold_ids_mono (l : List Component) :
    ∀ st : List Component × List Str, ∃ t, (l.foldl ksStep st).2 = st.2 ++ t := by
  induction l with
  | nil => intro st; exact ⟨[], by simp⟩
  | cons c l ih =>
    intro st
    rw [List.foldl_cons]
    by_cases h : (c.inputIdLinks.all fun inp =>
        pyIn (str "constant") inp || decide (inp ∈ st.2)) = true
    · have hst : ksStep st c = (st.1 ++ [c], st.2 ++ [c.id]) := by
        unfold ksStep; rw [if_pos h]
      rw [hst]
      obtain ⟨t, ht⟩ := ih (st.1 ++ [c], st.2 ++ [c.id])
      exact ⟨c.id :: t, by rw [ht]; simp⟩
    · have hst : ksStep st c = st := by unfold ksStep; rw [if_neg h]
      rw [hst]
      exact ih st

theorem ksFold_closure (A : List Component) :
    ∀ (l : List Component) (st : List Component × List Str),
      (∀ c ∈ l, c ∈ A) →
      (∀ idl ∈ st.2, idl = str "key" ∨ ∃ comp ∈ A, comp.id = idl ∧
        ∀ inp ∈ comp.inputIdLinks,
          pyIn (str "constant") inp = true ∨ inp ∈ (l.foldl ksStep st).2) →
      ∀ idl ∈ (l.foldl ksStep st).2, idl = str "key" ∨ ∃ comp ∈ A, comp.id = idl ∧
        ∀ inp ∈ comp.inputIdLinks,
          pyIn (str "constant") inp = true ∨ inp ∈ (l.foldl ksStep st).2 := by
  intro l
  induction l with
  | nil => intro st _ hpre idl hidl; exact hpre idl hidl
  | cons c l ih =>
    intro st hsub hpre idl hidl
    rw [List.foldl_cons] at hidl
    rw [List.foldl_cons] at hpre
    rw [List.foldl_cons]
    refine ih (ksStep st c) (fun d hd => hsub d (List.mem_cons_of_mem _ hd)) ?_ idl hidl
    intro idl' hidl'
    by_cases h : (c.inputIdLinks.all fun inp =>
        pyIn (str "constant") inp || decide (inp ∈ st.2)) = true
    · have hst : ksStep st c = (st.1 ++ [c], st.2 ++ [c.id]) := by
        unfold ksStep; rw [if_pos h]
      rw [hst] at hidl'
      simp only [List.mem_append, List.mem_singleton, List.not_mem_nil,
        List.mem_cons, or_false] at hidl'
      rcases hidl' with hidl' | rfl
      · exact hpre idl' hidl'
      · right
        refine ⟨c, hsub c (List.mem_cons_self _ _), rfl, ?_⟩
        intro inp hinp
        rw [List.all_eq_true] at h
        have hc := h inp hinp
        rw [Bool.or_eq_true, decide_eq_true_iff] at hc
        rcases hc with h1 | h1
        · exact Or.inl h1
        · right
          obtain ⟨t, ht⟩ := ksFold_ids_mono l (ksStep st c)
          rw [ht, hst]
          exact List.mem_append.mpr (Or.inl (List.mem_append.mpr (Or.inl h1)))
    · have hst : ksStep st c = st := by unfold ksStep; rw [if_neg h]
      rw [hst] at hidl'
      exact hpre idl' hidl'

/-- C1: rewriting the section-8 toy fragment with tag `'second_'` via
`build_second_cipher_model`'s per-component and per-input scans produces
exactly `constraint second_xor_0_0[i] = (second_plaintext[i] + second_key[i])
mod 2;` for every `i` in `0..3` (and the correspondingly prefixed
declarations), and searching every rewritten string for the original
unprefixed identifiers `xor_0_0`, `plaintext`, `key` as whole tokens finds
zero occurrences. -/
theorem second_rewrite_toy_exact :
    rewriteSecond [xorToy] [str "plaintext", str "key"] fragToy
      = [str "array[0..3] of var 0..1: second_plaintext;",
         str "array[0..3] of var 0..1: second_key;",
         str "array[0..3] of var 0..1: second_xor_0_0;",
         str "constraint second_xor_0_0[0] = (second_plaintext[0] + second_key[0]) mod 2;",
         str "constraint second_xor_0_0[1] = (second_plaintext[1] + second_key[1]) mod 2;",
         str "constraint second_xor_0_0[2] = (second_plaintext[2] + second_key[2]) mod 2;",
         str "constraint second_xor_0_0[3] = (second_plaintext[3] + second_key[3]) mod 2;"] ∧
    ([str "xor_0_0", str "plaintext", str "key"].all (fun tok =>
      (rewriteSecond [xorToy] [str "plaintext", str "key"] fragToy).all
        (fun s => countWholeTokens tok s == 0))) = true := by
  constructor <;> decide

/-- C2 (counterexample): for the backward components `rot_0_1`, `rot_0_12`
(one identifier a prefix of the other) and the single constraint string
`rot_0_12`, applying the `'inverse_'` identifier rewrite twice followed by the
double-prefix cleanup does NOT yield the same strings as applying the rewrite
once — the single application already leaves the double prefix
`inverse_inverse_rot_0_12`, which the claimed law would have to reproduce. -/
theorem inverse_rewrite_not_idem_counterexample :
    ((rewriteInverse rotComps (rewriteInverse rotComps [str "rot_0_12"])).map pyRemoveDbl
        ≠ rewriteInverse rotComps [str "rot_0_12"]) ∧
    rewriteInverse rotComps [str "rot_0_12"] = [str "inverse_inverse_rot_0_12"] ∧
    (rewriteInverse rotComps (rewriteInverse rotComps [str "rot_0_12"])).map pyRemoveDbl
        = [str "inverse_rot_0_12"] := by
  refine ⟨by decide, by decide, by decide⟩

/-- C2 (amended): for every list of backward components and all variable and
constraint string lists, the strings returned by
`clean_inverse_impossible_variables_constraints` contain no occurrence of the
double prefix `inverse_inverse_`; and on the section-8 toy fragment (backward
component `xor_0_0`), applying the `'inverse_'` rewrite twice followed by the
cleanup yields the same strings as applying the rewrite once. -/
theorem clean_inverse_no_double_and_toy_idem :
    (∀ (backwardComponents : List Component)
       (inverseVariables inverseConstraints : List Str) (s : Str),
      (s ∈ (cleanInverseImpossible backwardComponents inverseVariables inverseConstraints).1 ∨
       s ∈ (cleanInverseImpossible backwardComponents inverseVariables inverseConstraints).2) →
      ¬ Substr dblInv s) ∧
    (rewriteInverse [xorToy] (rewriteInverse [xorToy] fragInv)).map pyRemoveDbl
      = rewriteInverse [xorToy] fragInv := by
  constructor
  · rintro b v c s (hs | hs)
    · simp only [cleanInverseImpossible, List.mem_map] at hs
      obtain ⟨t, _, rfl⟩ := hs
      exact pyRemoveDbl_no_dbl t
    · simp only [cleanInverseImpossible, List.mem_map] at hs
      obtain ⟨t, _, rfl⟩ := hs
      exact pyRemoveDbl_no_dbl _
  · decide

/-- C2 (witness): the no-double-prefix theorem evaluated at a concrete input
whose variable string starts out doubly prefixed. -/
theorem clean_inverse_no_double_witness : ¬ Substr dblInv (str "inverse_x") :=
  clean_inverse_no_double_and_toy_idem.1 [] [str "inverse_inverse_x"] []
    (str "inverse_x") (Or.inl (by decide))

/-- C3: at the failing input (a cipher whose round 1 holds the unsupported
word operation `foo_1_0` after the supported `xor_0_0`), `build_cipher_model`
re-appends the stale buffers of the previous component instead of skipping:
the XOR constraints appear twice in the assembled model, while the
unsupported component's emitter is never invoked; likewise the SMT
deterministic-truncated builder re-appends the fixed-variable constraints when
its first component (an XOR, unsupported in that mode) is skipped. -/
theorem unsupported_component_stale_buffers :
    ((buildCipherModel emitFoo cipherFoo []).count
        (str "constraint xor_0_0[0] = (plaintext[0] + key[0]) mod 2;") = 2) ∧
    ((buildCipherModel emitFoo cipherFoo []).count
        (str "UNSUPPORTED_EMITTER_CALLED") = 0) ∧
    (buildSmtDeterministicTruncated (fun _ => ([str "v"], [str "c"])) smtToy
        [str "(assert fixc)"]
      = ([], [str "(assert fixc)", str "(assert fixc)"])) := by
  refine ⟨by decide, by decide, by decide⟩

/-- C4 (counterexample): for the section-8 toy cipher, `input_constraints`
declares FOUR binary arrays — `plaintext`, `key`, `xor_0_0` AND the output
component `cipher_output_1_0` — not three: the assembled plain model, which
prepends all of `input_constraints`, therefore never holds exactly 3 array
declarations. -/
theorem toy_model_declaration_count_counterexample :
    (inputConstraints cipherToy).length = 4 ∧ (inputConstraints cipherToy).length ≠ 3 := by
  constructor <;> decide

/-- C4 (amended): for the section-8 toy cipher, `input_constraints` produces
exactly the four array declarations for `plaintext`, `key`, `xor_0_0` and
`cipher_output_1_0`, and the XOR component contributes no declarations and
exactly the four per-bit constraints
`constraint xor_0_0[i] = (plaintext[i] + key[i]) mod 2;`. -/
theorem toy_model_declarations_and_xor_constraints :
    inputConstraints cipherToy
      = [str "array[0..3] of var 0..1: plaintext;",
         str "array[0..3] of var 0..1: key;",
         str "array[0..3] of var 0..1: xor_0_0;",
         str "array[0..3] of var 0..1: cipher_output_1_0;"] ∧
    xorCpConstraints xorToy
      = ([],
         [str "constraint xor_0_0[0] = (plaintext[0] + key[0]) mod 2;",
          str "constraint xor_0_0[1] = (plaintext[1] + key[1]) mod 2;",
          str "constraint xor_0_0[2] = (plaintext[2] + key[2]) mod 2;",
          str "constraint xor_0_0[3] = (plaintext[3] + key[3]) mod 2;"]) := by
  constructor <;> decide

/-- C5 (counterexample): for the one-input one-component toy cipher, the
output directive of `final_constraints` does NOT contain the claimed
`"plaintext = " ++ show(plaintext) ++ "\n" ++ "0"` template for the cipher
input (under either spacing of the emitted `++`), although it does contain the
input's template without the `"0"` sentinel: the `"0"` sentinel line follows
only component values, not cipher-input values. -/
theorem output_directive_input_sentinel_counterexample :
    (pyIn (str "\"plaintext = \"++ show(plaintext) ++ \"\\n\" ++ \"0\"")
      ((finalConstraints cipherOneComp).getD 1 []) = false) ∧
    (pyIn (str "\"plaintext = \"++ show(plaintext)++ \"\\n\" ++ \"0\"")
      ((finalConstraints cipherOneComp).getD 1 []) = false) ∧
    (pyIn (inputShowChunk (str "plaintext"))
      ((finalConstraints cipherOneComp).getD 1 []) = true) := by
  refine ⟨by decide, by decide, by decide⟩

/-- C6: `clean_constraints` returns its input unchanged whenever
`initial_round = 1` and `final_round = number_of_rounds` (for every
`middle_round`), and applying it twice with the same window arguments yields
the same list as applying it once. -/
theorem clean_constraints_identity_and_idem (M : ImpModel) (cs : List Str)
    (i m f : Nat) :
    (i = 1 ∧ f = M.cipher.numberOfRounds → cleanConstraints M cs i m f = cs) ∧
    cleanConstraints M (cleanConstraints M cs i m f) i m f
      = cleanConstraints M cs i m f := by
  constructor
  · intro h
    unfold cleanConstraints
    rw [if_pos h]
  · by_cases h : i = 1 ∧ f = M.cipher.numberOfRounds
    · unfold cleanConstraints
      rw [if_pos h, if_pos h]
    · unfold cleanConstraints
      rw [if_neg h, if_neg h]
      exact runSel_idem _ cs [] List.nodup_nil

/-- C6 (witness): identity on the full-span window and idempotence on a
proper window, at the toy impossible model. -/
theorem clean_constraints_identity_and_idem_witness :
    cleanConstraints impToy csToy 1 1 2 = csToy ∧
    cleanConstraints impToy (cleanConstraints impToy csToy 1 1 1) 1 1 1
      = cleanConstraints impToy csToy 1 1 1 :=
  ⟨(clean_constraints_identity_and_idem impToy csToy 1 1 2).1 ⟨rfl, rfl⟩,
   (clean_constraints_identity_and_idem impToy csToy 1 1 1).2⟩

/-- C7 (counterexample): for the toy impossible model with window (1,1,1) and
the input list `["plaintext rocks", "xor_0_0 rocks"]`, `clean_constraints`
returns the two kept constraints in keep-list-scan order
(`xor_0_0` first), NOT in the original input order as claimed. -/
theorem clean_constraints_order_counterexample :
    cleanConstraints impToy csToy 1 1 1 ≠ specOrderedKeep impToy csToy 1 1 1 ∧
    cleanConstraints impToy csToy 1 1 1 = [str "xor_0_0 rocks", str "plaintext rocks"] ∧
    specOrderedKeep impToy csToy 1 1 1 = [str "plaintext rocks", str "xor_0_0 rocks"] := by
  refine ⟨by decide, by decide, by decide⟩

/-- C8 (counterexample): in the cipher whose component `and_0_1` is fed only
by `constant_0_0`, `extract_key_schedule` classifies `and_0_1` as a
key-schedule component although it is not reachable from the `key` input
through constants and other key-schedule components. -/
theorem key_schedule_constant_fed_counterexample :
    str "and_0_1" ∈ (extractKeySchedule cipherConstFed).2 ∧
    str "and_0_1" ∉ keyReachableSpec cipherConstFed := by
  constructor <;> decide

/-- C9 (counterexample): for the expected identifier `xor_0_0` (in neither
cipher's inputs) matched on the line `inverse_xor_0_0 = [0,1]` (no `_i`/`_o`
pattern), the source stores the value under `inverse_xor_0_0`, whereas the
claim's rule stores it under the identifier's own key `xor_0_0`. -/
theorem solution_bucket_counterexample :
    addSolutionKey [str "plaintext"] [str "cipher_output_1_0"] (str "xor_0_0")
        (str "inverse_xor_0_0 = [0,1]") = some (str "inverse_xor_0_0") ∧
    claimBucketKey [str "cipher_output_1_0"] (str "xor_0_0")
        (str "inverse_xor_0_0 = [0,1]") = some (str "xor_0_0") ∧
    (some (str "inverse_xor_0_0") : Option Str) ≠ some (str "xor_0_0") := by
  refine ⟨by decide, by decide, by decide⟩

/-- C9 (amended): the storage key of `add_solution_to_components_values` is
decided by the first matching rule, in source order: a cipher input is stored
under its own key; an inverse-cipher input under `inverse_<id>`; a line
containing `<id>_i` (resp. `<id>_o`) under the suffixed key; a line containing
`inverse_<id> ` under `inverse_<id>`; a line containing `<id> ` under the
identifier's own key; otherwise nothing is stored. -/
theorem solution_bucket_cases (ci ii : List Str) (cid s : Str) :
    (cid ∈ ci → addSolutionKey ci ii cid s = some cid) ∧
    (cid ∉ ci → cid ∈ ii → addSolutionKey ci ii cid s = some (invTagS ++ cid)) ∧
    (cid ∉ ci → cid ∉ ii → pyIn (cid ++ str "_i") s = true →
      addSolutionKey ci ii cid s = some (cid ++ str "_i")) ∧
    (cid ∉ ci → cid ∉ ii → pyIn (cid ++ str "_i") s = false →
      pyIn (cid ++ str "_o") s = true →
      addSolutionKey ci ii cid s = some (cid ++ str "_o")) ∧
    (cid ∉ ci → cid ∉ ii → pyIn (cid ++ str "_i") s = false →
      pyIn (cid ++ str "_o") s = false →
      pyIn (invTagS ++ cid ++ str " ") s = true →
      addSolutionKey ci ii cid s = some (invTagS ++ cid)) ∧
    (cid ∉ ci → cid ∉ ii → pyIn (cid ++ str "_i") s = false →
      pyIn (cid ++ str "_o") s = false →
      pyIn (invTagS ++ cid ++ str " ") s = false →
      pyIn (cid ++ str " ") s = true →
      addSolutionKey ci ii cid s = some cid) ∧
    (cid ∉ ci → cid ∉ ii → pyIn (cid ++ str "_i") s = false →
      pyIn (cid ++ str "_o") s = false →
      pyIn (invTagS ++ cid ++ str " ") s = false →
      pyIn (cid ++ str " ") s = false →
      addSolutionKey ci ii cid s = none) := by
  refine ⟨?_, ?_, ?_, ?_, ?_, ?_, ?_⟩ <;>
    · intros
      simp only [addSolutionKey, *]
      simp [*]

/-- C9 (witness): the cipher-input rule at a concrete input. -/
theorem solution_bucket_cases_witness :
    addSolutionKey [str "plaintext"] [] (str "plaintext") (str "x") = some (str "plaintext") :=
  (solution_bucket_cases [str "plaintext"] [] (str "plaintext") (str "x")).1 (by decide)

/-- C7 (amended): when the window does not span the entire cipher,
`clean_constraints` returns exactly those input constraint strings that
contain at least one keep-list identifier as a substring — each kept exactly
once (the result has no duplicates) — but ordered by the keep-list scan
(grouped by the first matching keep identifier) rather than by the input
order. -/
theorem clean_constraints_keep_membership (M : ImpModel) (cs : List Str)
    (i m f : Nat) (h : ¬(i = 1 ∧ f = M.cipher.numberOfRounds)) :
    (cleanConstraints M cs i m f).Nodup ∧
    ∀ c, c ∈ cleanConstraints M cs i m f ↔
      c ∈ cs ∧ ∃ idl ∈ keepList M i m f, Substr idl c := by
  unfold cleanConstraints
  rw [if_neg h]
  constructor
  · exact runSel_nodup _ cs [] List.nodup_nil
  · intro c
    rw [mem_runSel]
    simp only [List.not_mem_nil, false_or]
    constructor
    · rintro ⟨h1, p, hp, hpc⟩
      rw [List.mem_map] at hp
      obtain ⟨idl, hidl, rfl⟩ := hp
      exact ⟨h1, idl, hidl, (pyIn_iff_substr_all idl c).mp hpc⟩
    · rintro ⟨h1, idl, hidl, hsub⟩
      exact ⟨h1, fun c' => pyIn idl c', List.mem_map.mpr ⟨idl, hidl, rfl⟩,
        (pyIn_iff_substr_all idl c).mpr hsub⟩

/-- C7 (witness): no duplicates in the pruned toy constraint list, and the
kept string `xor_0_0 rocks` is characterized by its keep-list match. -/
theorem clean_constraints_keep_membership_witness :
    (cleanConstraints impToy csToy 1 1 1).Nodup :=
  (clean_constraints_keep_membership impToy csToy 1 1 1 (by decide)).1

/-- C8 (amended): every identifier returned by `extract_key_schedule` beyond
the seed `'key'` names a component whose entire input set consists only of
identifiers containing `'constant'` as a substring and identifiers themselves
in the returned key-schedule list (decided in a single ordered pass); in
particular components fed only by constants are classified as key-schedule
even though they are not reachable from the `key` input. -/
theorem extract_key_schedule_closure (C : Cipher) (idl : Str)
    (h1 : idl ∈ (extractKeySchedule C).2) (h2 : idl ≠ str "key") :
    ∃ comp ∈ C.getAllComponents, comp.id = idl ∧
      ∀ inp ∈ comp.inputIdLinks,
        pyIn (str "constant") inp = true ∨ inp ∈ (extractKeySchedule C).2 := by
  have hmain := ksFold_closure C.getAllComponents C.getAllComponents
    ([], [str "key"]) (fun c hc => hc) ?_ idl h1
  · rcases hmain with h | h
    · exact absurd h h2
    · exact h
  · intro idl' hidl'
    simp only [List.mem_singleton] at hidl'
    exact Or.inl hidl'

/-- C8 (witness): the closure property at the constant-fed toy cipher. -/
theorem extract_key_schedule_closure_witness :
    ∃ comp ∈ cipherConstFed.getAllComponents, comp.id = str "and_0_1" ∧
      ∀ inp ∈ comp.inputIdLinks,
        pyIn (str "constant") inp = true ∨ inp ∈ (extractKeySchedule cipherConstFed).2 :=
  extract_key_schedule_closure cipherConstFed (str "and_0_1") (by decide) (by decide)

/-- C5 (amended): `final_constraints` returns exactly one closing solve
directive followed by exactly one output directive; the output directive
contains, for every cipher input, the chunk
`"e = "++ show(e) ++ "\n" ++` (with no `"0"` sentinel), and for every
component identifier in declaration order, the chunk
`"c = "++ show(c)++ "\n" ++ "0" ++ "\n"` including the `"0"` sentinel. -/
theorem final_constraints_structure (C : Cipher) (h : C.getAllComponentsIds ≠ []) :
    (finalConstraints C).length = 2 ∧
    (finalConstraints C).getD 0 [] = solveSatisfyStr ∧
    (∀ e ∈ C.inputs, Substr (inputShowChunk e) ((finalConstraints C).getD 1 [])) ∧
    (∀ cid ∈ C.getAllComponentsIds,
      Substr ((compShowChunk cid).take ((compShowChunk cid).length - 2))
        ((finalConstraints C).getD 1 [])) := by
  obtain ⟨pre, last, hcids⟩ : ∃ pre last, C.getAllComponentsIds = pre ++ [last] := by
    rcases List.eq_nil_or_concat C.getAllComponentsIds with h0 | ⟨pre, last, h0⟩
    · exact absurd h0 h
    · exact ⟨pre, last, by rw [h0, List.concat_eq_append]⟩
  have hfull : C.getAllComponentsIds.foldl (fun nc cid => nc ++ compShowChunk cid)
      (C.inputs.foldl (fun nc e => nc ++ inputShowChunk e) (str "output["))
      = ((str "output[" ++ (C.inputs.map inputShowChunk).flatten)
          ++ (pre.map compShowChunk).flatten) ++ compShowChunk last := by
    rw [foldl_append_map, foldl_append_map, hcids]
    rw [List.map_append, List.flatten_append]
    simp [List.append_assoc]
  have hfc : finalConstraints C
      = [solveSatisfyStr,
         (((str "output[" ++ (C.inputs.map inputShowChunk).flatten)
            ++ (pre.map compShowChunk).flatten)
          ++ (compShowChunk last).take ((compShowChunk last).length - 2)) ++ str "];"] := by
    have hdef : finalConstraints C
        = [solveSatisfyStr,
           (C.getAllComponentsIds.foldl (fun nc cid => nc ++ compShowChunk cid)
             (C.inputs.foldl (fun nc e => nc ++ inputShowChunk e) (str "output["))).take
             ((C.getAllComponentsIds.foldl (fun nc cid => nc ++ compShowChunk cid)
               (C.inputs.foldl (fun nc e => nc ++ inputShowChunk e)
                 (str "output["))).length - 2) ++ str "];"] := rfl
    rw [hdef, hfull, take_len_sub_two_append _ _ (compShowChunk_two_le last)]
  have hout : (finalConstraints C).getD 1 []
      = (((str "output[" ++ (C.inputs.map inputShowChunk).flatten)
          ++ (pre.map compShowChunk).flatten)
         ++ (compShowChunk last).take ((compShowChunk last).length - 2)) ++ str "];" := by
    rw [hfc]
    rfl
  refine ⟨by rw [hfc]; rfl, by rw [hfc]; rfl, ?_, ?_⟩
  · intro e he
    rw [hout]
    apply substr_append_right
    apply substr_append_right
    apply substr_append_right
    apply substr_append_left
    exact substr_flatten_map inputShowChunk C.inputs e he
  · intro cid hcid
    rw [hout]
    apply substr_append_right
    rw [hcids] at hcid
    rcases List.mem_append.mp hcid with hcid | hcid
    · apply substr_append_right
      apply substr_append_left
      exact substr_trans (substr_take_self (compShowChunk cid) _)
        (substr_flatten_map compShowChunk pre cid hcid)
    · rw [List.mem_singleton] at hcid
      subst hcid
      apply substr_append_left
      exact substr_self _

/-- C5 (witness): the input chunk of `plaintext` occurs in the toy cipher's
output directive. -/
theorem final_constraints_structure_witness :
    Substr (inputShowChunk (str "plaintext")) ((finalConstraints cipherOneComp).getD 1 []) :=
  (final_constraints_structure cipherOneComp (by decide)).2.2.1 (str "plaintext") (by decide)

/-- C10: for every XOR component built by `XOR.__init__`, the number of
addends recorded in its description is the total input bit length divided by
the output bit size; `cp_constraints` returns an empty declaration list and
exactly `output_bit_size` constraints; the `i`-th constraint sums (mod 2)
exactly the bits of the concatenated input list at the indices congruent to
`i` modulo `output_bit_size` (that is, `i, i + output_size, ...`); and every
index of the concatenated input list belongs to exactly one such residue
class, i.e. for every `j` exactly the constraint `j % output_size` references
input bit `j`. -/
theorem xor_component_structure (links : List Str) (positions : List (List Nat))
    (r n outSize : Nat) (h : 0 < outSize) :
    ((xorInit r n links positions outSize).descNum
        = (positions.map List.length).sum / outSize) ∧
    (xorCpConstraints (xorInit r n links positions outSize)).1 = [] ∧
    (xorCpConstraints (xorInit r n links positions outSize)).2.length = outSize ∧
    (∀ i, i < outSize →
      pySlice (xorAllInputs (xorInit r n links positions outSize)) i outSize
        = ((List.range (xorAllInputs (xorInit r n links positions outSize)).length).filter
            (fun j => decide (j % outSize = i))).filterMap
            (fun j => (xorAllInputs (xorInit r n links positions outSize)).get? j)) ∧
    (∀ i, i < outSize →
      (xorCpConstraints (xorInit r n links positions outSize)).2.getD i []
        = str "constraint " ++ (xorInit r n links positions outSize).id ++ str "["
          ++ natStr i ++ str "] = ("
          ++ List.intercalate (str " + ")
            (pySlice (xorAllInputs (xorInit r n links positions outSize)) i outSize)
          ++ str ") mod 2;") ∧
    (∀ j, (List.range outSize).filter
        (fun i => decide (i ≤ j ∧ (j - i) % outSize = 0)) = [j % outSize]) := by
  refine ⟨rfl, rfl, ?_, ?_, ?_, ?_⟩
  · have hlen : (xorCpConstraints (xorInit r n links positions outSize)).2.length
        = (List.range outSize).length := List.length_map _ _
    rw [hlen, List.length_range]
  · intro i hi
    rw [pySlice_eq_filterMap]
    congr 1
    apply List.filter_congr
    intro j _
    rw [decide_eq_decide]
    rw [slice_index_iff outSize i j hi]
  · intro i hi
    have hdef : (xorCpConstraints (xorInit r n links positions outSize)).2
        = (List.range outSize).map (fun i =>
            str "constraint " ++ (xorInit r n links positions outSize).id ++ str "["
              ++ natStr i ++ str "] = ("
              ++ List.intercalate (str " + ")
                (pySlice (xorAllInputs (xorInit r n links positions outSize)) i outSize)
              ++ str ") mod 2;") := rfl
    rw [hdef, List.getD_eq_getElem?_getD, List.getElem?_map, List.getElem?_range hi]
    rfl
  · intro j
    have hpq : ∀ i ∈ List.range outSize,
        (decide (i ≤ j ∧ (j - i) % outSize = 0)) = (decide (i = j % outSize)) := by
      intro i hi
      rw [List.mem_range] at hi
      rw [decide_eq_decide, slice_index_iff outSize i j hi]
      exact eq_comm
    rw [List.filter_congr hpq,
      range_filter_eq_singleton outSize (j % outSize) (Nat.mod_lt _ h)]

/-- C10 (witness): the toy XOR component has exactly 4 constraints, and its
addend count is 2. -/
theorem xor_component_structure_witness :
    (xorCpConstraints xorToy).2.length = 4 ∧ xorToy.descNum = 2 :=
  ⟨(xor_component_structure [str "plaintext", str "key"] [[0, 1, 2, 3], [0, 1, 2, 3]]
      0 0 4 (by decide)).2.2.1,
   (xor_component_structure [str "plaintext", str "key"] [[0, 1, 2, 3], [0, 1, 2, 3]]
      0 0 4 (by decide)).1⟩

end Claasp
